import Mathlib

/-!
Verification development for the ETF news bot (`etf_new_bot.py`).

Strings are embedded as `List Char` (`Str`). Each definition below is a
shallow embedding of the corresponding Python function, keeping the
source's names where Lean allows it.
-/

set_option autoImplicit false

abbrev Str := List Char

/-- Coerce a Lean string literal to the `List Char` representation. -/
def str (s : String) : Str := s.data

/-- The newline character, used by the splitter and the seen-file format. -/
def NL : Char := '\n'

/-- The backslash character (the MarkdownV2 escape character). -/
def BS : Char := '\\'

/-- Python `str.isspace` / default `str.strip` character set (Unicode
whitespace as recognised by CPython). -/
def pySpace (c : Char) : Bool :=
  c.toNat ∈ [9, 10, 11, 12, 13, 28, 29, 30, 31, 32, 133, 160, 5760,
    8192, 8193, 8194, 8195, 8196, 8197, 8198, 8199, 8200, 8201, 8202,
    8232, 8233, 8239, 8287, 12288]

/-- Python `str.strip()`: drop leading and trailing whitespace. -/
def pyStrip (s : Str) : Str :=
  ((s.dropWhile pySpace).reverse.dropWhile pySpace).reverse

/-- The characters of the Python raw string `r'_*\[\]()~`>#+\-=|{}.!'`
used to build the escaping character class in `escape_markdown_v2`
(note the three literal backslashes the raw string contains). -/
def escape_chars : Str :=
  ['_', '*', '\\', '[', '\\', ']', '(', ')', '~', '\x60', '>', '#', '+',
   '\\', '-', '=', '|', '\x7b', '\x7d', '.', '!']

/-- Membership in the regex character class `[re.escape(escape_chars)]`. -/
def isReserved (c : Char) : Bool := c ∈ escape_chars

/-- The `re.sub` body of `escape_markdown_v2`: prefix every character of
the class with a backslash. -/
def escapeBody (t : Str) : Str :=
  t.flatMap (fun c => if isReserved c then [BS, c] else [c])

/-- `escape_markdown_v2(text)`: `None` and the empty string map to the
empty string, otherwise each reserved character is prefixed with `\\`. -/
def escape_markdown_v2 : Option Str → Str
  | none => []
  | some t => if t = [] then [] else escapeBody t

/-- Scanner for the closing `>` of a tag match of the non-greedy regex
`<[^<]+?>`: find the first `>`, failing on `<` or end of input. -/
def tagClose : Str → Option Str
  | [] => none
  | c :: cs => if c = '>' then some cs else if c = '<' then none else tagClose cs

/-- Attempt to match the remainder of `<[^<]+?>` right after a `<`:
the first character must not be `<` (the class needs at least one
character), then scan for the closing `>`. -/
def tagScan : Str → Option Str
  | [] => none
  | c :: cs => if c = '<' then none else tagClose cs

/-- Fuel-indexed scan for `re.sub('<[^<]+?>', '', text)`; fuel at least
the length of the input makes the fuel bound unreachable (each step
recurses on a strictly shorter list, see `tagScan_length`). -/
def stripTagsFuel : Nat → Str → Str
  | 0, s => s
  | _ + 1, [] => []
  | f + 1, c :: cs =>
    if c = '<' then
      match tagScan cs with
      | some rest => stripTagsFuel f rest
      | none => c :: stripTagsFuel f cs
    else c :: stripTagsFuel f cs

/-- Body of `strip_html_tags`: `re.sub('<[^<]+?>', '', text)`. -/
def stripTagsBody (s : Str) : Str := stripTagsFuel s.length s

/-- `strip_html_tags(text)`: `text or ''` then remove `<[^<]+?>` matches. -/
def strip_html_tags : Option Str → Str
  | none => []
  | some t => stripTagsBody t

/-- `escape_url(url)`: replace every `)` with `%29`. -/
def escape_url (u : Str) : Str :=
  u.flatMap (fun c => if c = ')' then ['%', '2', '9'] else [c])

/-! ### The message splitter of `send_news` (lines 178-195) -/

/-- `etf_message.rfind('\n', 0, stop)` over the list embedding: the last
index `i < min stop s.length` with `s[i] = '\n'`, or `none` (Python `-1`). -/
def rfindNLa : Str → Nat → Option Nat
  | _, 0 => none
  | [], _ + 1 => none
  | c :: cs, n + 1 =>
    match rfindNLa cs n with
    | some i => some (i + 1)
    | none => if c = NL then some 0 else none

/-- One iteration of the while loop: the part emitted and the remainder.
Python's `rfind` result `-1` makes the slices `msg[:-1]` and `msg[-1:]`. -/
def splitStep (msg : Str) : Str × Str :=
  match rfindNLa msg 4000 with
  | some i => (msg.take i, msg.drop i)
  | none => (msg.take (msg.length - 1), msg.drop (msg.length - 1))

/-- The `while len(etf_message) > 4000` loop, fuel-indexed because the
source loop need not terminate (`split_at == 0` leaves the message
unchanged). Returns the raw (untrimmed) parts, the final remainder last;
`none` models a run that exhausts the fuel, in particular divergence. -/
def splitLoopFuel : Nat → Str → Option (List Str)
  | 0, msg => if 4000 < msg.length then none else some [msg]
  | f + 1, msg =>
    if 4000 < msg.length then
      (splitLoopFuel f (splitStep msg).2).map ((splitStep msg).1 :: ·)
    else some [msg]

/-- The texts actually passed to `bot.send_message`: every loop part is
sent `strip`ped; the final remainder is sent only if its `strip` is
non-empty. -/
def sentOf : List Str → List Str
  | [] => []
  | [last] => if pyStrip last = [] then [] else [pyStrip last]
  | p :: rest => pyStrip p :: sentOf rest

/-- All chunk texts sent for one assembled per-ticker message (with fuel
`msg.length`, which suffices whenever the loop terminates, since every
productive iteration shortens the message by at least one character). -/
def sentForMsg (msg : Str) : Option (List Str) :=
  (splitLoopFuel msg.length msg).map sentOf

/-! ### Data model: articles, the news API boundary, the query cache -/

/-- An Article Record with the `dict.get(..., '')` defaults applied. -/
structure Article where
  title : Str
  description : Str
  url : Str
deriving DecidableEq, Repr

/-- The HTTP answer of the news API for one query: the status code, and
the parsed `articles` field of the JSON body (used only on status 200). -/
structure ApiResp where
  status : Nat
  articles : List Article
deriving DecidableEq, Repr

/-- The module-level `news_cache` dictionary, newest entry first. -/
abbrev Cache := List (Str × List Article)

/-- Dictionary lookup `news_query in news_cache` / `news_cache[q]`. -/
def lookupCache (cache : Cache) (q : Str) : Option (List Article) :=
  (cache.find? (fun p => p.1 = q)).map (·.2)

/-- Observable outcome of one `get_news` call: the returned list, the
cache afterwards, whether `requests.get` was executed, and the
`print`-logged `(status, query)` pair if any. -/
structure FetchResult where
  articles : List Article
  cache : Cache
  networkCall : Bool
  log : Option (Nat × Str)
deriving DecidableEq, Repr

/-- `get_news(news_query)` (lines 97-130): serve from `news_cache` if
present; otherwise GET the API, cache and return `articles` on 200, and
on any other status log `(status, query)` and return `[]` uncached. -/
def get_news (api : Str → ApiResp) (cache : Cache) (q : Str) : FetchResult :=
  match lookupCache cache q with
  | some arts => ⟨arts, cache, false, none⟩
  | none =>
    let resp := api q
    if resp.status = 200 then ⟨resp.articles, (q, resp.articles) :: cache, true, none⟩
    else ⟨[], cache, true, some (resp.status, q)⟩

/-! ### The notification dispatcher `send_news` and handler `send_welcome` -/

/-- Environment-provided configuration plus the current date string. -/
structure Env where
  CHAT_ID : Str
  dateStr : Str
deriving DecidableEq, Repr

/-- An incoming Telegram command message (both handlers ignore it). -/
structure Incoming where
  text : Str
deriving DecidableEq, Repr

/-- One outgoing `bot.send_message` call: destination chat and text. -/
structure OutMsg where
  chat : Str
  text : Str
deriving DecidableEq, Repr

/-- The `keywords` ticker table, in source order. -/
def keywords : List (Str × Str) :=
  [(str "VTI", str "US stock market OR SP500 OR US economy OR Federal Reserve"),
   (str "VWO", str "emerging markets OR China economy OR India economy OR developing countries"),
   (str "TIP", str "inflation OR CPI OR TIPS bonds OR US Treasury"),
   (str "GLD", str "gold prices OR precious metals OR gold ETF"),
   (str "VNQ", str "real estate market OR REITs OR commercial real estate OR housing market"),
   (str "VGIT", str "interest rates OR treasury yields OR Federal Reserve OR bond market")]

/-- Loop state of the per-ticker article loop (lines 157-174). -/
structure EtfStep where
  msg : Str
  localSeen : List Str
  seen : List Str
  hasArticles : Bool
  included : List Article
deriving DecidableEq, Repr

/-- The state before the article loop of one ticker:
`etf_message = f"*{escape_markdown_v2(etf)}*\n"`, empty local seen-set. -/
def initEtf (etf : Str) (seen : List Str) : EtfStep :=
  ⟨str "*" ++ escape_markdown_v2 (some etf) ++ str "*\n", [], seen, false, []⟩

/-- The formatted block appended for one delivered article:
`f"\n• *{title}*\n  {desc}\n  [Read more]({escape_url(url)})\n"`. -/
def articleBlock (a : Article) : Str :=
  str "\n• *" ++ escape_markdown_v2 (some a.title) ++ str "*\n  " ++
    escape_markdown_v2 (some (strip_html_tags (some a.description))) ++
    str "\n  [Read more](" ++ escape_url a.url ++ str ")\n"

/-- One iteration of `for a in articles` (lines 162-174): skip a URL in
the global or local seen-set, else mark it seen in both and append the
formatted block. -/
def stepArticle (st : EtfStep) (a : Article) : EtfStep :=
  if a.url ∈ st.seen ∨ a.url ∈ st.localSeen then st
  else ⟨st.msg ++ articleBlock a, a.url :: st.localSeen, a.url :: st.seen,
        true, st.included ++ [a]⟩

/-- Observable outcome of one ticker: the chunks sent, the articles
included in its message, and the `get_news` log entries. -/
structure EtfOut where
  etf : Str
  sent : List OutMsg
  included : List Article
  log : List (Nat × Str)
deriving DecidableEq, Repr

/-- Outcome of the ticker loop: per-ticker outputs in table order, the
cache and the global Seen-URL Set after the loop. -/
structure EtfsOut where
  outs : List EtfOut
  cache : Cache
  seen : List Str
deriving DecidableEq, Repr

/-- The `for etf, query in keywords.items()` loop (lines 156-195):
fetch, filter, assemble, split and send per ticker, threading the cache
and the global seen-set; `none` models a run whose split loop diverges
(the cycle then never completes). -/
def runEtfs (env : Env) (api : Str → ApiResp) :
    List (Str × Str) → Cache → List Str → Option EtfsOut
  | [], cache, seen => some ⟨[], cache, seen⟩
  | (etf, q) :: rest, cache, seen =>
    let fr := get_news api cache q
    let st := fr.articles.foldl stepArticle (initEtf etf seen)
    match (if st.hasArticles then sentForMsg st.msg else some []) with
    | none => none
    | some chunks =>
      (runEtfs env api rest fr.cache st.seen).map (fun o =>
        ⟨⟨etf, chunks.map (fun t => ⟨env.CHAT_ID, t⟩), st.included, fr.log.toList⟩ :: o.outs,
         o.cache, o.seen⟩)

/-- The standalone header message `f"*TODAY'S NEWS: {date_str}*"`. -/
def headerText (env : Env) : Str :=
  str "*TODAY\x27S NEWS: " ++ escape_markdown_v2 (some env.dateStr) ++ str "*"

/-- Outcome of one completed dispatch cycle: all messages in send order,
the per-ticker outputs, and the cache and Seen-URL Set that the cycle
leaves behind (the latter is what `save_seen_articles` persists). -/
structure CycleResult where
  messages : List OutMsg
  etfOuts : List EtfOut
  cache : Cache
  seen : List Str
deriving DecidableEq, Repr

/-- All articles included in some ticker's message during the cycle. -/
def CycleResult.included (r : CycleResult) : List Article :=
  r.etfOuts.flatMap (·.included)

/-- `send_news(_)` (lines 144-197): header message, ticker loop, then
persist; `none` models a cycle that never completes. The incoming
message is bound but never read, exactly as in the source. -/
def send_news (env : Env) (api : Str → ApiResp) (cache : Cache)
    (seen : List Str) (_m : Incoming) : Option CycleResult :=
  (runEtfs env api keywords cache seen).map (fun o =>
    ⟨⟨env.CHAT_ID, headerText env⟩ :: o.outs.flatMap (·.sent), o.outs, o.cache, o.seen⟩)

/-- `send_welcome(_)` (lines 132-142): one static message to `CHAT_ID`;
the incoming message is bound but never read. -/
def send_welcome (env : Env) (_m : Incoming) : OutMsg :=
  ⟨env.CHAT_ID, str "To interact with this bot use command: */getNews*"⟩

/-! ### The Deduplication Store (lines 19-40) -/

/-- `save_seen_articles(seen_set)`: the file content written, one URL
per line (`f.write(url + "\n")` per element, in enumeration order). -/
def save_seen_articles (urls : List Str) : Str :=
  urls.flatMap (fun u => u ++ [NL])

/-- Split a file content on newlines (each `'\n'` ends a segment). -/
def splitNL : Str → List Str
  | [] => [[]]
  | c :: cs =>
    if c = NL then [] :: splitNL cs
    else
      match splitNL cs with
      | [] => [[c]]
      | l :: ls => (c :: l) :: ls

/-- `load_seen_articles()`: `none` models an absent file (empty set);
otherwise one URL per line, stripped, empty lines dropped. -/
def load_seen_articles (file : Option Str) : List Str :=
  match file with
  | none => []
  | some content => ((splitNL content).map pyStrip).filter (· ≠ [])


/-! ### Spec-side definitions and verification-support predicates -/

/-- The MarkdownV2 reserved set exactly as the specification lists it:
`_ * [ ] ( ) ~ \x60 > # + - = | \x7b \x7d . !` (18 characters). -/
def reservedSpec : Str :=
  ['_', '*', '[', ']', '(', ')', '~', '\x60', '>', '#', '+', '-', '=',
   '|', '\x7b', '\x7d', '.', '!']

/-- The amended reserved set: the spec's 18 characters plus the escape
character (backslash) itself, which the source's character class also
matches. -/
def reservedAmended : Str := BS :: reservedSpec

/-- Formalisation of "every newline-delimited line of `s` is at most `L`
characters": every window of `s` longer than `L` contains a newline
(equivalently, no newline-free run exceeds `L`). -/
def LinesBounded (L : Nat) (s : Str) : Prop :=
  ∀ j < s.length + 1, ∀ i < j, L < j - i → ∃ k < j, i ≤ k ∧ s.get? k = some NL

/-! ### Concrete inputs used by witnesses and counterexamples -/

/-- A concrete environment: chat id `chat` and an empty date string. -/
def env0 : Env := ⟨str "chat", []⟩

/-- A concrete incoming command message. -/
def m0 : Incoming := ⟨str "/getNews"⟩

/-- A second concrete incoming message with different content. -/
def mB : Incoming := ⟨str "other text"⟩

/-- An API stub answering status 500 with no body to every query. -/
def errApi : Str → ApiResp := fun _ => ⟨500, []⟩

/-- A concrete article with URL `u`. -/
def a0 : Article := ⟨str "t", str "d", str "u"⟩

/-- An API stub answering status 200 with the single article `a0`. -/
def okApi : Str → ApiResp := fun _ => ⟨200, [a0]⟩

/-- The per-ticker outcome of a fetch that failed with status 500. -/
def errOut (p : Str × Str) : EtfOut := ⟨p.1, [], [], [(500, p.2)]⟩

/-- The cycle result of running `send_news` in `env0` against `errApi`
with empty cache and seen-set `[u]`: only the header is sent. -/
def R0 : CycleResult :=
  ⟨[⟨str "chat", str "*TODAY\x27S NEWS: *"⟩], keywords.map errOut, [], [str "u"]⟩

/-- The single chunk sent for ticker `A` when `okApi` yields `a0`. -/
def chunkA : Str := str "*A*\n\n• *t*\n  d\n  [Read more](u)"

/-- The ticker-loop outcome of a two-ticker table `A, B` against `okApi`
starting from an empty seen-set: `a0` goes to `A` only. -/
def O0 : EtfsOut :=
  ⟨[⟨str "A", [⟨str "chat", chunkA⟩], [a0], []⟩, ⟨str "B", [], [], []⟩],
   [(str "qb", [a0]), (str "qa", [a0])], [str "u"]⟩

/-- A 4000-character article title. -/
def bigTitle : Str := List.replicate 4000 'a'

/-- An article whose (unescaped) title is 4000 characters long. -/
def badArticle : Article := ⟨bigTitle, [], str "u"⟩

/-- The per-ticker message `send_news` assembles for ticker `VTI` from
the single article `badArticle` under empty seen-sets. -/
def badMsg : Str := (stepArticle (initEtf (str "VTI") []) badArticle).msg

/-- The literal text of `badMsg` after the 4000-character title. -/
def tailLit : Str := str "*\n  \n  [Read more](u)\n"

/-- A 4001-character message whose two lines have 2000 characters each. -/
def msgW8 : Str := List.replicate 2000 'a' ++ NL :: List.replicate 2000 'b'

/-- A short two-line message used to witness the splitter claims. -/
def msgW1 : Str := str "*VTI*\nhello"

/-! ### Sanity checks and supporting lemmas -/

theorem tagClose_length : ∀ s r, tagClose s = some r → r.length < s.length := by
  intro s
  induction s with
  | nil => intro r h; simp [tagClose] at h
  | cons c cs ih =>
    intro r h
    simp only [tagClose] at h
    by_cases h1 : c = '>'
    · simp [h1] at h
      simp [← h, List.length_cons, Nat.lt_succ_self]
    · by_cases h2 : c = '<'
      · simp [h1, h2] at h
      · simp [h1, h2] at h
        exact Nat.lt_trans (ih r h) (Nat.lt_succ_self _)

theorem tagScan_length : ∀ s r, tagScan s = some r → r.length < s.length := by
  intro s r h
  match s with
  | [] => simp [tagScan] at h
  | c :: cs =>
    simp only [tagScan] at h
    by_cases h2 : c = '<'
    · simp [h2] at h
    · simp [h2] at h
      exact Nat.lt_trans (tagClose_length cs r h) (Nat.lt_succ_self _)

example : escape_markdown_v2 (some (str "a.b")) = str "a\\.b" := by decide
example : escape_markdown_v2 (some (str "\\")) = str "\\\\" := by decide
example : strip_html_tags (some (str "a<b>c</b>d")) = str "acd" := by decide
example : strip_html_tags (some (str "a<<b>c")) = str "a<c" := by decide
example : strip_html_tags (some (str "a<>b")) = str "a<>b" := by decide
example : escape_url (str "a)b") = str "a%29b" := by decide
example : pyStrip (str "  a b \n") = str "a b" := by decide
example : rfindNLa (str "ab\ncd\nef") 6 = some 5 := by decide
example : rfindNLa (str "ab\ncd\nef") 5 = some 2 := by decide
example : rfindNLa (str "abcd") 4 = none := by decide
example : splitNL (str "a\nb\n") = [str "a", str "b", []] := by decide
example : load_seen_articles (some (str "a\n\nb\n")) = [str "a", str "b"] := by decide

/-! ### The escaping routine (claim C6) -/

theorem isReserved_iff_amended : ∀ c : Char, isReserved c = true ↔ c ∈ reservedAmended := by
  intro c
  simp only [isReserved, escape_chars, reservedAmended, reservedSpec, BS,
    List.mem_cons, List.not_mem_nil, or_false, decide_eq_true_eq]
  tauto

theorem escapeBody_eq_amended : ∀ t : Str,
    escapeBody t = t.flatMap (fun c => if c ∈ reservedAmended then [BS, c] else [c]) := by
  intro t
  induction t with
  | nil => rfl
  | cons c cs ih =>
    simp only [escapeBody, List.flatMap_cons] at *
    rw [ih]
    by_cases h : c ∈ reservedAmended
    · rw [if_pos h, if_pos ((isReserved_iff_amended c).mpr h)]
    · rw [if_neg h, if_neg (fun hb => h ((isReserved_iff_amended c).mp hb))]

/-- Claim C6 (counterexample): the backslash is not in the spec's listed
reserved set, yet `escape_markdown_v2` alters it (prefixing it with an
escape character), so the escaper does not leave all characters outside
the listed set unaltered. -/
theorem claim_C6_counterexample :
    BS ∉ reservedSpec ∧ escape_markdown_v2 (some [BS]) ≠ [BS] ∧
      escape_markdown_v2 (some [BS]) = [BS, BS] := by
  decide

/-- Claim C6 (amended): with the reserved set extended by the backslash,
`escape_markdown_v2` prefixes every occurrence of a reserved character
with exactly one escape character, alters no other character, and maps
`None` and the empty string to the empty string. -/
theorem claim_C6 : ∀ o : Option Str,
    escape_markdown_v2 o =
      (o.getD []).flatMap (fun c => if c ∈ reservedAmended then [BS, c] else [c]) := by
  intro o
  match o with
  | none => rfl
  | some t =>
    show (if t = [] then [] else escapeBody t) = _
    by_cases h : t = []
    · rw [if_pos h, h]; rfl
    · rw [if_neg h, escapeBody_eq_amended]; rfl

/-! ### The query cache (claim C3) -/

/-- Claim C3 (counterexample): after a first call for query `q` that did
contact the network (but got a non-200 answer), a second call for the
same query contacts the network again — the claimed "at most one network
request per query per process lifetime" is violated by the source's
error path. -/
theorem claim_C3_counterexample :
    (get_news errApi [] (str "q")).networkCall = true ∧
      (get_news errApi ((get_news errApi [] (str "q")).cache) (str "q")).networkCall = true := by
  decide

/-- Claim C3 (amended): if the first call for a query received HTTP 200
(hence cached its result), any second call for the same query performs
no network request and returns the identical article list, leaving the
cache unchanged. -/
theorem claim_C3 : ∀ (api : Str → ApiResp) (cache : Cache) (q : Str),
    (api q).status = 200 →
    (get_news api (get_news api cache q).cache q).networkCall = false ∧
      (get_news api (get_news api cache q).cache q).articles =
        (get_news api cache q).articles ∧
      (get_news api (get_news api cache q).cache q).cache =
        (get_news api cache q).cache := by
  intro api cache q h200
  match hl : lookupCache cache q with
  | some arts =>
    simp [get_news, hl]
  | none =>
    have h1 : get_news api cache q =
        ⟨(api q).articles, (q, (api q).articles) :: cache, true, none⟩ := by
      simp [get_news, hl, h200]
    have h2 : lookupCache ((q, (api q).articles) :: cache) q = some (api q).articles := by
      simp [lookupCache, List.find?]
    rw [h1]
    simp [get_news, h2]

/-- Claim C3 (witness): a concrete 200-answering API; the second call
for the cached query is served without a network request. -/
theorem claim_C3_witness :
    (okApi (str "qa")).status = 200 ∧
      ((get_news okApi (get_news okApi [] (str "qa")).cache (str "qa")).networkCall = false ∧
        (get_news okApi (get_news okApi [] (str "qa")).cache (str "qa")).articles =
          (get_news okApi [] (str "qa")).articles ∧
        (get_news okApi (get_news okApi [] (str "qa")).cache (str "qa")).cache =
          (get_news okApi [] (str "qa")).cache) :=
  ⟨by decide, claim_C3 okApi [] (str "qa") (by decide)⟩

/-! ### Error handling on non-200 responses (claim C5) -/

/-- Claim C5: on a non-200 status for an uncached query, `get_news` logs
the status and query and returns an empty list without caching (so the
same query retries the network next time), and the dispatcher sends no
message for that ticker and continues with the remaining tickers from an
unchanged cache and seen-set. -/
theorem claim_C5 : ∀ (env : Env) (api : Str → ApiResp) (cache : Cache) (seen : List Str)
    (etf q : Str) (rest : List (Str × Str)),
    lookupCache cache q = none → (api q).status ≠ 200 →
    get_news api cache q = ⟨[], cache, true, some ((api q).status, q)⟩ ∧
      (get_news api (get_news api cache q).cache q).networkCall = true ∧
      runEtfs env api ((etf, q) :: rest) cache seen =
        (runEtfs env api rest cache seen).map (fun o =>
          ⟨⟨etf, [], [], [((api q).status, q)]⟩ :: o.outs, o.cache, o.seen⟩) := by
  intro env api cache seen etf q rest h1 h2
  have hget : get_news api cache q = ⟨[], cache, true, some ((api q).status, q)⟩ := by
    simp [get_news, h1, h2]
  refine ⟨hget, ?_, ?_⟩
  · rw [hget]
    show (get_news api cache q).networkCall = true
    rw [hget]
  · simp only [runEtfs, hget]
    simp [initEtf]

/-- Claim C5 (witness): a concrete one-ticker table against a
500-answering API with an empty cache. -/
theorem claim_C5_witness :
    get_news errApi [] (str "qa") = ⟨[], [], true, some ((errApi (str "qa")).status, str "qa")⟩ ∧
      (get_news errApi (get_news errApi [] (str "qa")).cache (str "qa")).networkCall = true ∧
      runEtfs env0 errApi [(str "A", str "qa")] [] [str "s"] =
        (runEtfs env0 errApi [] [] [str "s"]).map (fun o =>
          ⟨⟨str "A", [], [], [((errApi (str "qa")).status, str "qa")]⟩ :: o.outs, o.cache, o.seen⟩) :=
  claim_C5 env0 errApi [] [str "s"] (str "A") (str "qa") [] (by decide) (by decide)

/-! ### The Deduplication Store round-trip (claim C7) -/

theorem dropWhile_of_none (p : Char → Bool) :
    ∀ v : Str, (∀ c ∈ v, p c = false) → v.dropWhile p = v := by
  intro v hv
  match v with
  | [] => rfl
  | c :: cs =>
    rw [List.dropWhile_cons, if_neg]
    rw [hv c (List.mem_cons_self c cs)]
    simp

theorem pyStrip_of_no_space : ∀ u : Str, (∀ c ∈ u, pySpace c = false) → pyStrip u = u := by
  intro u hu
  unfold pyStrip
  rw [dropWhile_of_none pySpace u hu,
      dropWhile_of_none pySpace u.reverse (fun c hc => hu c (List.mem_reverse.mp hc)),
      List.reverse_reverse]

theorem splitNL_append_nl : ∀ (u t : Str), NL ∉ u →
    splitNL (u ++ NL :: t) = u :: splitNL t := by
  intro u
  induction u with
  | nil => intro t _; simp [splitNL]
  | cons c u' ih =>
    intro t hnl
    have hc : ¬c = NL := fun h => hnl (h ▸ List.mem_cons_self c u')
    have hrec := ih t (fun h => hnl (List.mem_cons_of_mem c h))
    simp only [List.cons_append, splitNL, if_neg hc]
    rw [show u'.append (NL :: t) = u' ++ NL :: t from rfl, hrec]

theorem load_save_clean : ∀ S : List Str,
    (∀ u ∈ S, u ≠ [] ∧ ∀ c ∈ u, pySpace c = false) →
    load_seen_articles (some (save_seen_articles S)) = S := by
  intro S
  induction S with
  | nil => intro _; decide
  | cons u S' ih =>
    intro h
    obtain ⟨hne, hsp⟩ := h u (List.mem_cons_self u S')
    have hnl : NL ∉ u := fun hm => by
      have := hsp NL hm
      simp [pySpace, NL] at this
    have hsave : save_seen_articles (u :: S') = u ++ NL :: save_seen_articles S' := by
      simp [save_seen_articles]
    rw [load_seen_articles, hsave, splitNL_append_nl u _ hnl]
    simp only [List.map_cons, pyStrip_of_no_space u hsp, List.filter_cons]
    rw [if_pos (by simpa using hne)]
    have := ih (fun v hv => h v (List.mem_cons_of_mem u hv))
    rw [load_seen_articles] at this
    rw [this]

/-- Claim C7: saving a set of URL strings (non-empty, whitespace-free
strings, as URLs are) and loading the persisted content reproduces the
original set exactly, order-independently; loading an absent file yields
the empty set. -/
theorem claim_C7 : ∀ S : List Str,
    (∀ u ∈ S, u ≠ [] ∧ ∀ c ∈ u, pySpace c = false) →
    (load_seen_articles (some (save_seen_articles S))).toFinset = S.toFinset ∧
      load_seen_articles none = [] := by
  intro S h
  rw [load_save_clean S h]
  exact ⟨rfl, rfl⟩

/-- Claim C7 (witness): a concrete two-URL set round-trips. -/
theorem claim_C7_witness :
    (∀ u ∈ [str "http://a", str "http://b"], u ≠ [] ∧ ∀ c ∈ u, pySpace c = false) ∧
      ((load_seen_articles (some (save_seen_articles [str "http://a", str "http://b"]))).toFinset =
          [str "http://a", str "http://b"].toFinset ∧
        load_seen_articles none = []) :=
  ⟨by decide, claim_C7 [str "http://a", str "http://b"] (by decide)⟩

/-! ### Seen-set invariants of the ticker loop (claims C2, C4, C9, C10) -/

theorem stepArticle_seen_mono : ∀ (st : EtfStep) (a : Article), st.seen ⊆ (stepArticle st a).seen := by
  intro st a u hu
  unfold stepArticle
  split
  · exact hu
  · exact List.mem_cons_of_mem _ hu

theorem foldStep_seen_mono : ∀ (arts : List Article) (st : EtfStep),
    st.seen ⊆ (arts.foldl stepArticle st).seen := by
  intro arts
  induction arts with
  | nil => intro st; exact fun _ h => h
  | cons a arts' ih =>
    intro st
    exact fun u hu => ih (stepArticle st a) (stepArticle_seen_mono st a hu)

theorem stepArticle_localSub : ∀ (st : EtfStep) (a : Article),
    st.localSeen ⊆ st.seen → (stepArticle st a).localSeen ⊆ (stepArticle st a).seen := by
  intro st a h
  unfold stepArticle
  split
  · exact h
  · exact List.cons_subset_cons _ h

theorem stepArticle_inv : ∀ (st : EtfStep) (a : Article) (base : List Str),
    (st.localSeen ⊆ st.seen) →
    (∀ u, u ∈ st.seen ↔ u ∈ base ∨ u ∈ st.included.map (·.url)) →
    (∀ b ∈ st.included, b.url ∉ base) →
    ((stepArticle st a).localSeen ⊆ (stepArticle st a).seen) ∧
      (∀ u, u ∈ (stepArticle st a).seen ↔
        u ∈ base ∨ u ∈ (stepArticle st a).included.map (·.url)) ∧
      (∀ b ∈ (stepArticle st a).included, b.url ∉ base) := by
  intro st a base hls hiff hnb
  by_cases hc : a.url ∈ st.seen ∨ a.url ∈ st.localSeen
  · rw [stepArticle, if_pos hc]
    exact ⟨hls, hiff, hnb⟩
  · rw [stepArticle, if_neg hc]
    refine ⟨List.cons_subset_cons _ hls, ?_, ?_⟩
    · intro u
      simp only [List.mem_cons, List.map_append, List.mem_append, List.map_cons,
        List.map_nil, List.mem_singleton]
      rw [hiff u]
      tauto
    · intro b hb
      rcases List.mem_append.mp hb with hb' | hb'
      · exact hnb b hb'
      · have : b = a := by simpa using hb'
        subst this
        intro hbase
        exact hc (Or.inl ((hiff b.url).mpr (Or.inl hbase)))

theorem foldStep_inv : ∀ (arts : List Article) (st : EtfStep) (base : List Str),
    (st.localSeen ⊆ st.seen) →
    (∀ u, u ∈ st.seen ↔ u ∈ base ∨ u ∈ st.included.map (·.url)) →
    (∀ b ∈ st.included, b.url ∉ base) →
    ((arts.foldl stepArticle st).localSeen ⊆ (arts.foldl stepArticle st).seen) ∧
      (∀ u, u ∈ (arts.foldl stepArticle st).seen ↔
        u ∈ base ∨ u ∈ (arts.foldl stepArticle st).included.map (·.url)) ∧
      (∀ b ∈ (arts.foldl stepArticle st).included, b.url ∉ base) := by
  intro arts
  induction arts with
  | nil => intro st base h1 h2 h3; exact ⟨h1, h2, h3⟩
  | cons a arts' ih =>
    intro st base h1 h2 h3
    obtain ⟨g1, g2, g3⟩ := stepArticle_inv st a base h1 h2 h3
    exact ih (stepArticle st a) base g1 g2 g3

theorem foldStep_covers : ∀ (arts : List Article) (st : EtfStep),
    st.localSeen ⊆ st.seen → ∀ b ∈ arts, b.url ∈ (arts.foldl stepArticle st).seen := by
  intro arts
  induction arts with
  | nil => intro st _ b hb; exact absurd hb (List.not_mem_nil b)
  | cons a arts' ih =>
    intro st hls b hb
    rcases List.mem_cons.mp hb with rfl | hb'
    · refine foldStep_seen_mono arts' (stepArticle st b) ?_
      by_cases hc : b.url ∈ st.seen ∨ b.url ∈ st.localSeen
      · rw [stepArticle, if_pos hc]
        rcases hc with h | h
        · exact h
        · exact hls h
      · rw [stepArticle, if_neg hc]
        exact List.mem_cons_self _ _
    · exact ih (stepArticle st a) (stepArticle_localSub st a hls) b hb'

theorem initEtf_inv : ∀ (etf : Str) (seen : List Str),
    ((initEtf etf seen).localSeen ⊆ (initEtf etf seen).seen) ∧
      (∀ u, u ∈ (initEtf etf seen).seen ↔
        u ∈ seen ∨ u ∈ (initEtf etf seen).included.map (·.url)) ∧
      (∀ b ∈ (initEtf etf seen).included, b.url ∉ seen) := by
  intro etf seen
  refine ⟨?_, ?_, ?_⟩
  · intro u hu; exact absurd hu (List.not_mem_nil u)
  · intro u; simp [initEtf]
  · intro b hb; exact absurd hb (List.not_mem_nil b)

theorem runEtfs_facts : ∀ (env : Env) (api : Str → ApiResp) (table : List (Str × Str))
    (cache : Cache) (seen : List Str) (o : EtfsOut),
    runEtfs env api table cache seen = some o →
    (seen ⊆ o.seen) ∧
      (∀ u, u ∈ o.seen ↔ u ∈ seen ∨ u ∈ (o.outs.flatMap (·.included)).map (·.url)) ∧
      (∀ x ∈ o.outs, ∀ a ∈ x.included, a.url ∉ seen) := by
  intro env api table
  induction table with
  | nil =>
    intro cache seen o h
    simp only [runEtfs, Option.some.injEq] at h
    subst h
    refine ⟨fun _ h => h, ?_, ?_⟩
    · intro u; simp
    · intro x hx; exact absurd hx (List.not_mem_nil x)
  | cons p table' ih =>
    intro cache seen o h
    obtain ⟨etf, q⟩ := p
    simp only [runEtfs] at h
    split at h
    · exact absurd h (by simp)
    · rename_i chunks hchunks
      obtain ⟨o', ho', rfl⟩ := Option.map_eq_some'.mp h
      obtain ⟨i1, i2, i3⟩ := initEtf_inv etf seen
      obtain ⟨f1, f2, f3⟩ := foldStep_inv (get_news api cache q).articles (initEtf etf seen) seen i1 i2 i3
      obtain ⟨r1, r2, r3⟩ := ih (get_news api cache q).cache
        ((get_news api cache q).articles.foldl stepArticle (initEtf etf seen)).seen o' ho'
      have hseen_sub :
          seen ⊆ ((get_news api cache q).articles.foldl stepArticle (initEtf etf seen)).seen :=
        fun u hu => (f2 u).mpr (Or.inl hu)
      refine ⟨fun u hu => r1 (hseen_sub hu), ?_, ?_⟩
      · intro u
        rw [r2 u, f2 u]
        simp only [List.flatMap_cons, List.map_append, List.mem_append, or_assoc]
      · intro x hx a ha
        rcases List.mem_cons.mp hx with rfl | hx'
        · exact f3 a ha
        · intro hbase
          exact r3 x hx' a ha (hseen_sub hbase)

/-- Claim C2: a URL in the Seen-URL Set when the dispatcher runs is
never among the URLs of articles included in any outgoing message of a
completed dispatch cycle. -/
theorem claim_C2 : ∀ (env : Env) (api : Str → ApiResp) (cache : Cache) (seen : List Str)
    (m : Incoming) (r : CycleResult) (u : Str),
    send_news env api cache seen m = some r → u ∈ seen →
    u ∉ r.included.map (·.url) := by
  intro env api cache seen m r u h hu
  obtain ⟨o, ho, rfl⟩ := Option.map_eq_some'.mp h
  intro hmem
  obtain ⟨a, ha, hau⟩ := List.mem_map.mp hmem
  obtain ⟨x, hx, hax⟩ := List.mem_flatMap.mp ha
  exact (runEtfs_facts env api keywords cache seen o ho).2.2 x hx a hax (hau ▸ hu)

/-- Claim C2 (witness): a concrete cycle against a failing API with the
URL `u` already seen. -/
theorem claim_C2_witness :
    send_news env0 errApi [] [str "u"] m0 = some R0 ∧ str "u" ∈ [str "u"] ∧
      str "u" ∉ R0.included.map (·.url) :=
  ⟨by decide, by decide,
    claim_C2 env0 errApi [] [str "u"] m0 R0 (str "u") (by decide) (by decide)⟩

/-- Claim C9: the Seen-URL Set only grows across a completed dispatch
cycle, and the set the cycle persists is exactly the starting set union
the URLs of all articles included in outgoing messages of the cycle. -/
theorem claim_C9 : ∀ (env : Env) (api : Str → ApiResp) (cache : Cache) (seen : List Str)
    (m : Incoming) (r : CycleResult),
    send_news env api cache seen m = some r →
    seen ⊆ r.seen ∧ (∀ u, u ∈ r.seen ↔ u ∈ seen ∨ u ∈ r.included.map (·.url)) := by
  intro env api cache seen m r h
  obtain ⟨o, ho, rfl⟩ := Option.map_eq_some'.mp h
  obtain ⟨h1, h2, _⟩ := runEtfs_facts env api keywords cache seen o ho
  exact ⟨h1, h2⟩

/-- Claim C9 (witness): a concrete completed cycle. -/
theorem claim_C9_witness :
    send_news env0 errApi [] [str "u"] m0 = some R0 ∧
      ([str "u"] ⊆ R0.seen ∧
        (∀ u, u ∈ R0.seen ↔ u ∈ [str "u"] ∨ u ∈ R0.included.map (·.url))) :=
  ⟨by decide, claim_C9 env0 errApi [] [str "u"] m0 R0 (by decide)⟩

theorem runEtfs_chat : ∀ (env : Env) (api : Str → ApiResp) (table : List (Str × Str))
    (cache : Cache) (seen : List Str) (o : EtfsOut),
    runEtfs env api table cache seen = some o →
    ∀ x ∈ o.outs, ∀ mm ∈ x.sent, mm.chat = env.CHAT_ID := by
  intro env api table
  induction table with
  | nil =>
    intro cache seen o h
    simp only [runEtfs, Option.some.injEq] at h
    subst h
    intro x hx
    exact absurd hx (List.not_mem_nil x)
  | cons p table' ih =>
    intro cache seen o h
    obtain ⟨etf, q⟩ := p
    simp only [runEtfs] at h
    split at h
    · exact absurd h (by simp)
    · rename_i chunks hchunks
      obtain ⟨o', ho', rfl⟩ := Option.map_eq_some'.mp h
      intro x hx mm hmm
      rcases List.mem_cons.mp hx with rfl | hx'
      · obtain ⟨t, _, rfl⟩ := List.mem_map.mp hmm
        rfl
      · exact ih _ _ o' ho' x hx' mm hmm

/-- Claim C10: both handlers ignore the content and origin of the
incoming command message — their outputs for any two incoming messages
under the same external state coincide — and every outgoing message is
addressed to the configured `CHAT_ID`. -/
theorem claim_C10 : ∀ (env : Env) (api : Str → ApiResp) (cache : Cache) (seen : List Str)
    (ma mb : Incoming) (r : CycleResult) (msg : OutMsg),
    send_news env api cache seen ma = some r → msg ∈ r.messages →
    send_welcome env ma = send_welcome env mb ∧
      send_news env api cache seen ma = send_news env api cache seen mb ∧
      (send_welcome env ma).chat = env.CHAT_ID ∧
      msg.chat = env.CHAT_ID := by
  intro env api cache seen ma mb r msg h hmsg
  refine ⟨rfl, rfl, rfl, ?_⟩
  obtain ⟨o, ho, rfl⟩ := Option.map_eq_some'.mp h
  rcases List.mem_cons.mp hmsg with rfl | hmsg'
  · rfl
  · obtain ⟨x, hx, hmx⟩ := List.mem_flatMap.mp hmsg'
    exact runEtfs_chat env api keywords cache seen o ho x hx msg hmx

/-- Claim C10 (witness): two distinct incoming messages over a concrete
external state produce the same outputs, all addressed to `CHAT_ID`. -/
theorem claim_C10_witness :
    send_news env0 errApi [] [str "u"] m0 = some R0 ∧
      (⟨str "chat", str "*TODAY\x27S NEWS: *"⟩ : OutMsg) ∈ R0.messages ∧
      (send_welcome env0 m0 = send_welcome env0 mB ∧
        send_news env0 errApi [] [str "u"] m0 = send_news env0 errApi [] [str "u"] mB ∧
        (send_welcome env0 m0).chat = env0.CHAT_ID ∧
        (⟨str "chat", str "*TODAY\x27S NEWS: *"⟩ : OutMsg).chat = env0.CHAT_ID) :=
  ⟨by decide, by decide,
    claim_C10 env0 errApi [] [str "u"] m0 mB R0 ⟨str "chat", str "*TODAY\x27S NEWS: *"⟩
      (by decide) (by decide)⟩

/-- Claim C4: when two tickers' fetched article lists share a URL `u`
not yet seen, a completed cycle over the two-ticker table includes an
article with URL `u` in the first ticker's message only, never in the
second's, and `u` is in the seen-set the cycle persists. -/
theorem claim_C4 : ∀ (env : Env) (api : Str → ApiResp) (e1 q1 e2 q2 : Str)
    (l1 l2 : List Article) (seen : List Str) (u : Str) (o : EtfsOut),
    api q1 = ⟨200, l1⟩ → api q2 = ⟨200, l2⟩ → q1 ≠ q2 →
    (∃ a ∈ l1, a.url = u) → (∃ a ∈ l2, a.url = u) → u ∉ seen →
    runEtfs env api [(e1, q1), (e2, q2)] [] seen = some o →
    ∃ o1 o2, o.outs = [o1, o2] ∧ (∃ a ∈ o1.included, a.url = u) ∧
      (∀ a ∈ o2.included, a.url ≠ u) ∧ u ∈ o.seen := by
  intro env api e1 q1 e2 q2 l1 l2 seen u o hapi1 hapi2 hne hu1 hu2 hnotseen h
  have hget1 : get_news api [] q1 = ⟨l1, [(q1, l1)], true, none⟩ := by
    simp [get_news, lookupCache, hapi1]
  have hget2 : get_news api [(q1, l1)] q2 = ⟨l2, [(q2, l2), (q1, l1)], true, none⟩ := by
    simp [get_news, lookupCache, List.find?, hne, hapi2]
  simp only [runEtfs, hget1, hget2] at h
  obtain ⟨i1a, i1b, i1c⟩ := initEtf_inv e1 seen
  obtain ⟨f1a, f1b, f1c⟩ := foldStep_inv l1 (initEtf e1 seen) seen i1a i1b i1c
  have hu_st1 : u ∈ (l1.foldl stepArticle (initEtf e1 seen)).seen := by
    obtain ⟨a1, ha1, hau1⟩ := hu1
    exact hau1 ▸ foldStep_covers l1 (initEtf e1 seen) i1a a1 ha1
  have hu_inc1 : ∃ a ∈ (l1.foldl stepArticle (initEtf e1 seen)).included, a.url = u := by
    rcases (f1b u).mp hu_st1 with hs | hi
    · exact absurd hs hnotseen
    · obtain ⟨a, ha, hau⟩ := List.mem_map.mp hi
      exact ⟨a, ha, hau⟩
  obtain ⟨i2a, i2b, i2c⟩ := initEtf_inv e2 (l1.foldl stepArticle (initEtf e1 seen)).seen
  obtain ⟨f2a, f2b, f2c⟩ :=
    foldStep_inv l2 (initEtf e2 (l1.foldl stepArticle (initEtf e1 seen)).seen)
      (l1.foldl stepArticle (initEtf e1 seen)).seen i2a i2b i2c
  split at h
  · exact absurd h (by simp)
  · rename_i chunks1 hchunks1
    obtain ⟨o', ho', rfl⟩ := Option.map_eq_some'.mp h
    split at ho'
    · exact absurd ho' (by simp)
    · rename_i chunks2 hchunks2
      obtain ⟨o'', ho'', rfl⟩ := Option.map_eq_some'.mp ho'
      simp only [runEtfs, Option.some.injEq] at ho''
      subst ho''
      refine ⟨_, _, rfl, hu_inc1, ?_, ?_⟩
      · intro a ha hau
        exact f2c a ha (hau ▸ hu_st1)
      · exact foldStep_seen_mono l2 (initEtf e2 (l1.foldl stepArticle (initEtf e1 seen)).seen)
          hu_st1

/-- Claim C4 (witness): a concrete two-ticker cycle in which both
fetches return the same article. -/
theorem claim_C4_witness :
    runEtfs env0 okApi [(str "A", str "qa"), (str "B", str "qb")] [] [] = some O0 ∧
      (∃ o1 o2, O0.outs = [o1, o2] ∧ (∃ a ∈ o1.included, a.url = str "u") ∧
        (∀ a ∈ o2.included, a.url ≠ str "u") ∧ str "u" ∈ O0.seen) :=
  ⟨by decide,
    claim_C4 env0 okApi (str "A") (str "qa") (str "B") (str "qb") [a0] [a0] [] (str "u") O0
      (by decide) (by decide) (by decide) (by decide) (by decide) (by decide) (by decide)⟩

/-! ### The message splitter: termination, sizes, boundaries (claims C1, C8) -/

theorem rfindNLa_mem : ∀ (s : Str) (n i : Nat),
    rfindNLa s n = some i → i < n ∧ s.get? i = some NL := by
  intro s
  induction s with
  | nil =>
    intro n i h
    match n with
    | 0 => simp [rfindNLa] at h
    | _ + 1 => simp [rfindNLa] at h
  | cons c cs ih =>
    intro n i h
    match n with
    | 0 => simp [rfindNLa] at h
    | m + 1 =>
      simp only [rfindNLa] at h
      match hm : rfindNLa cs m with
      | some j =>
        rw [hm] at h
        obtain ⟨hlt, hget⟩ := ih m j hm
        obtain rfl : j + 1 = i := by simpa using h
        exact ⟨by omega, by simpa using hget⟩
      | none =>
        rw [hm] at h
        by_cases hc : c = NL
        · rw [if_pos hc] at h
          obtain rfl : (0 : Nat) = i := by simpa using h
          exact ⟨by omega, by simp [hc]⟩
        · rw [if_neg hc] at h
          exact absurd h (by simp)

theorem rfindNLa_ge : ∀ (s : Str) (n j : Nat), j < n → s.get? j = some NL →
    ∃ i, rfindNLa s n = some i ∧ j ≤ i := by
  intro s
  induction s with
  | nil => intro n j _ hget; simp at hget
  | cons c cs ih =>
    intro n j hj hget
    match n with
    | 0 => omega
    | m + 1 =>
      match j with
      | 0 =>
        have hc : c = NL := by simpa using hget
        match hm : rfindNLa cs m with
        | some i' => exact ⟨i' + 1, by simp [rfindNLa, hm], by omega⟩
        | none => exact ⟨0, by simp [rfindNLa, hm, hc], by omega⟩
      | j' + 1 =>
        obtain ⟨i', hi', hji⟩ := ih m j' (by omega) (by simpa using hget)
        exact ⟨i' + 1, by simp [rfindNLa, hi'], by omega⟩

theorem lb_window : ∀ msg : Str, LinesBounded 3998 msg → 4000 < msg.length →
    ∃ i, rfindNLa msg 4000 = some i ∧ 1 ≤ i ∧ i < 4000 ∧ msg.get? i = some NL := by
  intro msg hlb hlen
  obtain ⟨k, hk, hik, hkNL⟩ := hlb 4000 (by omega) 1 (by omega) (by omega)
  obtain ⟨i, hi, hki⟩ := rfindNLa_ge msg 4000 k hk hkNL
  obtain ⟨hi4, hiNL⟩ := rfindNLa_mem msg 4000 i hi
  exact ⟨i, hi, by omega, hi4, hiNL⟩

theorem lb_drop : ∀ (L : Nat) (s : Str) (d : Nat),
    LinesBounded L s → LinesBounded L (s.drop d) := by
  intro L s d h j hj i hi hL
  rw [List.length_drop] at hj
  rcases Nat.lt_or_ge s.length d with hcase | hcase
  · omega
  · obtain ⟨k, hk, hik, hkNL⟩ := h (d + j) (by omega) (d + i) (by omega) (by omega)
    refine ⟨k - d, by omega, by omega, ?_⟩
    have hdk : d + (k - d) = k := by omega
    rw [List.get?_drop, hdk]
    exact hkNL

theorem lb_short : ∀ (L : Nat) (s : Str), s.length ≤ L → LinesBounded L s := by
  intro L s hs j hj i hi hL
  omega

theorem splitStep_lb : ∀ msg : Str, LinesBounded 3998 msg → 4000 < msg.length →
    ∃ i, 1 ≤ i ∧ i < 4000 ∧ msg.get? i = some NL ∧
      splitStep msg = (msg.take i, msg.drop i) ∧
      (msg.drop i).length < msg.length ∧ (msg.take i).length ≤ 3999 := by
  intro msg hlb hlen
  obtain ⟨i, hi, h1, h4, hNL⟩ := lb_window msg hlb hlen
  refine ⟨i, h1, h4, hNL, ?_, ?_, ?_⟩
  · rw [splitStep, hi]
  · rw [List.length_drop]; omega
  · rw [List.length_take]; omega

theorem splitStep_join : ∀ msg : Str, (splitStep msg).1 ++ (splitStep msg).2 = msg := by
  intro msg
  rw [splitStep]
  split
  · exact List.take_append_drop _ _
  · exact List.take_append_drop _ _

theorem splitLoop_some : ∀ (f : Nat) (msg : Str), LinesBounded 3998 msg → msg.length ≤ f →
    ∃ ps, splitLoopFuel f msg = some ps := by
  intro f
  induction f with
  | zero =>
    intro msg _ hlen
    rw [splitLoopFuel, if_neg (by omega)]
    exact ⟨[msg], rfl⟩
  | succ f ih =>
    intro msg hlb hlen
    by_cases hbig : 4000 < msg.length
    · obtain ⟨i, hi1, _, _, hstep, hdec, _⟩ := splitStep_lb msg hlb hbig
      obtain ⟨ps', hps'⟩ := ih (msg.drop i) (lb_drop 3998 msg i hlb)
        (by rw [List.length_drop]; omega)
      refine ⟨msg.take i :: ps', ?_⟩
      rw [splitLoopFuel, if_pos hbig, hstep]
      rw [hps']
      rfl
    · rw [splitLoopFuel, if_neg hbig]
      exact ⟨[msg], rfl⟩

theorem splitLoop_join : ∀ (f : Nat) (msg : Str) (ps : List Str),
    splitLoopFuel f msg = some ps → ps.flatten = msg := by
  intro f
  induction f with
  | zero =>
    intro msg ps h
    rw [splitLoopFuel] at h
    split at h
    · exact absurd h (by simp)
    · obtain rfl : [msg] = ps := by simpa using h
      simp
  | succ f ih =>
    intro msg ps h
    rw [splitLoopFuel] at h
    split at h
    · obtain ⟨ps', hps', rfl⟩ := Option.map_eq_some'.mp h
      simp only [List.flatten_cons]
      rw [ih _ _ hps', splitStep_join]
    · obtain rfl : [msg] = ps := by simpa using h
      simp

theorem take_head? : ∀ (l : Str) (i : Nat), 1 ≤ i → (l.take i).head? = l.head? := by
  intro l i hi
  match l, i with
  | [], _ => simp
  | c :: cs, 0 => omega
  | c :: cs, j + 1 => simp [List.take]

theorem splitLoop_head : ∀ (f : Nat) (msg : Str) (ps : List Str), LinesBounded 3998 msg →
    splitLoopFuel f msg = some ps → ∃ h t, ps = h :: t ∧ h.head? = msg.head? := by
  intro f
  induction f with
  | zero =>
    intro msg ps _ h
    rw [splitLoopFuel] at h
    split at h
    · exact absurd h (by simp)
    · obtain rfl : [msg] = ps := by simpa using h
      exact ⟨msg, [], rfl, rfl⟩
  | succ f _ =>
    intro msg ps hlb h
    rw [splitLoopFuel] at h
    split at h
    · rename_i hbig
      obtain ⟨ps', _, rfl⟩ := Option.map_eq_some'.mp h
      obtain ⟨i, hi1, _, _, hstep, _, _⟩ := splitStep_lb msg hlb hbig
      refine ⟨(splitStep msg).1, ps', rfl, ?_⟩
      rw [hstep]
      exact take_head? msg i hi1
    · obtain rfl : [msg] = ps := by simpa using h
      exact ⟨msg, [], rfl, rfl⟩

theorem splitLoop_tail_nl : ∀ (f : Nat) (msg : Str) (ps : List Str), LinesBounded 3998 msg →
    splitLoopFuel f msg = some ps → ∀ p ∈ ps.tail, p.head? = some NL := by
  intro f
  induction f with
  | zero =>
    intro msg ps _ h
    rw [splitLoopFuel] at h
    split at h
    · exact absurd h (by simp)
    · obtain rfl : [msg] = ps := by simpa using h
      intro p hp
      exact absurd hp (List.not_mem_nil p)
  | succ f ih =>
    intro msg ps hlb h
    rw [splitLoopFuel] at h
    split at h
    · rename_i hbig
      obtain ⟨ps', hps', rfl⟩ := Option.map_eq_some'.mp h
      obtain ⟨i, hi1, _, hiNL, hstep, _, _⟩ := splitStep_lb msg hlb hbig
      have hlbrest : LinesBounded 3998 (splitStep msg).2 := by
        rw [hstep]; exact lb_drop 3998 msg i hlb
      have hrest_head : (splitStep msg).2.head? = some NL := by
        rw [hstep]
        rw [← List.get?_zero, List.get?_drop, Nat.add_zero]
        exact hiNL
      intro p hp
      obtain ⟨hh, tt, rfl, hhead⟩ := splitLoop_head f (splitStep msg).2 ps' hlbrest hps'
      rcases List.mem_cons.mp (by simpa using hp) with rfl | hp'
      · rw [hhead, hrest_head]
      · exact ih (splitStep msg).2 (hh :: tt) hlbrest hps' p (by simpa using hp')
    · obtain rfl : [msg] = ps := by simpa using h
      intro p hp
      exact absurd hp (List.not_mem_nil p)

theorem pyStrip_length_le : ∀ s : Str, (pyStrip s).length ≤ s.length := by
  intro s
  unfold pyStrip
  calc ((s.dropWhile pySpace).reverse.dropWhile pySpace).reverse.length
      = ((s.dropWhile pySpace).reverse.dropWhile pySpace).length := List.length_reverse _
    _ ≤ (s.dropWhile pySpace).reverse.length := (List.dropWhile_suffix pySpace).length_le
    _ = (s.dropWhile pySpace).length := List.length_reverse _
    _ ≤ s.length := (List.dropWhile_suffix pySpace).length_le

theorem splitLoop_chunks_le : ∀ (f : Nat) (msg : Str) (ps : List Str), LinesBounded 3998 msg →
    splitLoopFuel f msg = some ps → ∀ c ∈ sentOf ps, c.length ≤ 4000 := by
  intro f
  induction f with
  | zero =>
    intro msg ps _ h
    rw [splitLoopFuel] at h
    split at h
    · exact absurd h (by simp)
    · rename_i hsmall
      obtain rfl : [msg] = ps := by simpa using h
      intro c hc
      rw [sentOf] at hc
      split at hc
      · exact absurd hc (List.not_mem_nil c)
      · obtain rfl : c = pyStrip msg := by simpa using hc
        exact le_trans (pyStrip_length_le msg) (by omega)
  | succ f ih =>
    intro msg ps hlb h
    rw [splitLoopFuel] at h
    split at h
    · rename_i hbig
      obtain ⟨ps', hps', rfl⟩ := Option.map_eq_some'.mp h
      obtain ⟨i, _, _, _, hstep, _, htake⟩ := splitStep_lb msg hlb hbig
      have hlbrest : LinesBounded 3998 (splitStep msg).2 := by
        rw [hstep]; exact lb_drop 3998 msg i hlb
      obtain ⟨hh, tt, rfl, _⟩ := splitLoop_head f (splitStep msg).2 ps' hlbrest hps'
      intro c hc
      rw [show sentOf ((splitStep msg).1 :: hh :: tt) =
            pyStrip (splitStep msg).1 :: sentOf (hh :: tt) from rfl] at hc
      rcases List.mem_cons.mp hc with rfl | hc'
      · refine le_trans (pyStrip_length_le _) ?_
        rw [hstep]
        exact le_trans htake (by omega)
      · exact ih (splitStep msg).2 (hh :: tt) hlbrest hps' c hc'
    · rename_i hsmall
      obtain rfl : [msg] = ps := by simpa using h
      intro c hc
      rw [sentOf] at hc
      split at hc
      · exact absurd hc (List.not_mem_nil c)
      · obtain rfl : c = pyStrip msg := by simpa using hc
        exact le_trans (pyStrip_length_le msg) (by omega)

/-- Claim C8: for every message whose newline-delimited lines are all at
most 3998 characters, the split loop terminates within `msg.length`
iterations (the fuel suffices), and whenever the loop guard holds each
iteration strictly shortens the remaining message. -/
theorem claim_C8 : ∀ msg : Str, LinesBounded 3998 msg →
    (splitLoopFuel msg.length msg).isSome = true ∧
      (4000 < msg.length → (splitStep msg).2.length < msg.length) := by
  intro msg hlb
  constructor
  · obtain ⟨ps, hps⟩ := splitLoop_some msg.length msg hlb (le_refl _)
    rw [hps]
    rfl
  · intro hbig
    obtain ⟨i, _, _, _, hstep, hdec, _⟩ := splitStep_lb msg hlb hbig
    rw [hstep]
    exact hdec

theorem lb_msgW8 : LinesBounded 3998 msgW8 := by
  have hlen : msgW8.length = 4001 := by
    rw [msgW8, List.length_append, List.length_replicate, List.length_cons,
      List.length_replicate]
  have hget : msgW8.get? 2000 = some NL := by
    rw [msgW8, List.get?_append_right (by rw [List.length_replicate])]
    rw [List.length_replicate, Nat.sub_self]
    rfl
  intro j hj i hi hL
  rw [hlen] at hj
  exact ⟨2000, by omega, by omega, hget⟩

/-- Claim C8 (witness): a concrete 4001-character two-line message. -/
theorem claim_C8_witness :
    LinesBounded 3998 msgW8 ∧
      ((splitLoopFuel msgW8.length msgW8).isSome = true ∧
        (4000 < msgW8.length → (splitStep msgW8).2.length < msgW8.length)) :=
  ⟨lb_msgW8, claim_C8 msgW8 lb_msgW8⟩

/-- Claim C1 (amended): for every assembled per-ticker message whose
newline-delimited lines are all at most 3998 characters, the split loop
completes; the raw parts concatenate exactly to the original message;
the chunks actually sent are the stripped parts and none exceeds 4000
characters; and every part after the first starts at a newline (no
chunk boundary falls mid-line). -/
theorem claim_C1 : ∀ msg : Str, LinesBounded 3998 msg →
    ∃ ps, splitLoopFuel msg.length msg = some ps ∧
      sentForMsg msg = some (sentOf ps) ∧
      ps.flatten = msg ∧
      (∀ c ∈ sentOf ps, c.length ≤ 4000) ∧
      (∀ p ∈ ps.tail, p.head? = some NL) := by
  intro msg hlb
  obtain ⟨ps, hps⟩ := splitLoop_some msg.length msg hlb (le_refl _)
  refine ⟨ps, hps, ?_, ?_, ?_, ?_⟩
  · rw [sentForMsg, hps]
    rfl
  · exact splitLoop_join msg.length msg ps hps
  · exact splitLoop_chunks_le msg.length msg ps hlb hps
  · exact splitLoop_tail_nl msg.length msg ps hlb hps

/-- Claim C1 (witness): a concrete short assembled-style message. -/
theorem claim_C1_witness :
    LinesBounded 3998 msgW1 ∧
      (∃ ps, splitLoopFuel msgW1.length msgW1 = some ps ∧
        sentForMsg msgW1 = some (sentOf ps) ∧
        ps.flatten = msgW1 ∧
        (∀ c ∈ sentOf ps, c.length ≤ 4000) ∧
        (∀ p ∈ ps.tail, p.head? = some NL)) :=
  ⟨lb_short 3998 msgW1 (by decide), claim_C1 msgW1 (lb_short 3998 msgW1 (by decide))⟩

/-! ### Divergence of the splitter on a long line (claim C1, counterexample) -/

theorem rfindNLa_nil : ∀ n : Nat, rfindNLa [] n = none := by
  intro n
  match n with
  | 0 => rfl
  | _ + 1 => rfl

theorem rfindNLa_append_big : ∀ (x y : Str) (n : Nat), x.length ≤ n →
    rfindNLa (x ++ y) n =
      (match rfindNLa y (n - x.length) with
       | some i => some (x.length + i)
       | none => rfindNLa x n) := by
  intro x
  induction x with
  | nil =>
    intro y n _
    match h : rfindNLa y n with
    | some i => simp [h]
    | none => simp [h, rfindNLa_nil]
  | cons c cs ih =>
    intro y n hlen
    match n with
    | 0 => simp at hlen
    | m + 1 =>
      have hcs : cs.length ≤ m := by simpa using hlen
      show (match rfindNLa (cs ++ y) m with
            | some i => some (i + 1)
            | none => if c = NL then some 0 else none) = _
      rw [ih y m hcs]
      rw [show (m + 1) - (c :: cs).length = m - cs.length from by
        rw [List.length_cons, Nat.succ_sub_succ]]
      match hy : rfindNLa y (m - cs.length) with
      | some i =>
        show some (cs.length + i + 1) = some ((c :: cs).length + i)
        rw [List.length_cons]
        congr 1
        omega
      | none =>
        rfl

theorem rfindNLa_append_small : ∀ (x y : Str) (n : Nat), n ≤ x.length →
    rfindNLa (x ++ y) n = rfindNLa x n := by
  intro x
  induction x with
  | nil =>
    intro y n hn
    obtain rfl : n = 0 := by simpa using hn
    match y with
    | [] => rfl
    | c :: cs => rfl
  | cons c cs ih =>
    intro y n hn
    match n with
    | 0 => rfl
    | m + 1 =>
      show (match rfindNLa (cs ++ y) m with
            | some i => some (i + 1)
            | none => if c = NL then some 0 else none) = _
      rw [ih y m (by simpa using hn)]
      rfl

theorem rfindNLa_none : ∀ (s : Str) (n : Nat), (∀ c ∈ s, ¬c = NL) → rfindNLa s n = none := by
  intro s
  induction s with
  | nil => intro n _; exact rfindNLa_nil n
  | cons c cs ih =>
    intro n h
    match n with
    | 0 => rfl
    | m + 1 =>
      show (match rfindNLa cs m with
            | some i => some (i + 1)
            | none => if c = NL then some 0 else none) = none
      rw [ih m (fun d hd => h d (List.mem_cons_of_mem c hd))]
      rw [if_neg (h c (List.mem_cons_self c cs))]

theorem splitLoop_diverges : ∀ (f : Nat) (msg : Str), 4000 < msg.length →
    rfindNLa msg 4000 = some 0 → splitLoopFuel f msg = none := by
  intro f msg hbig hrf
  induction f with
  | zero => rw [splitLoopFuel, if_pos hbig]
  | succ f ih =>
    rw [splitLoopFuel, if_pos hbig]
    have hstep : splitStep msg = (msg.take 0, msg.drop 0) := by rw [splitStep, hrf]
    rw [hstep]
    dsimp only
    rw [List.drop_zero, ih]
    rfl

theorem escapeBody_id : ∀ t : Str, (∀ c ∈ t, isReserved c = false) → escapeBody t = t := by
  intro t
  induction t with
  | nil => intro _; rfl
  | cons c cs ih =>
    intro h
    show (if isReserved c then [BS, c] else [c]) ++ escapeBody cs = c :: cs
    rw [h c (List.mem_cons_self c cs), if_neg (by simp), ih (fun d hd => h d (List.mem_cons_of_mem c hd))]
    rfl

theorem bigTitle_ne_nil : bigTitle ≠ [] := by
  intro h
  have h2 : bigTitle.length = 0 := by rw [h]; rfl
  rw [bigTitle, List.length_replicate] at h2
  exact absurd h2 (by decide)

theorem escBig : escape_markdown_v2 (some bigTitle) = bigTitle := by
  show (if bigTitle = [] then [] else escapeBody bigTitle) = bigTitle
  rw [if_neg bigTitle_ne_nil]
  refine escapeBody_id bigTitle ?_
  intro c hc
  rw [bigTitle] at hc
  rw [List.eq_of_mem_replicate hc]
  decide

theorem badMsg_eq : badMsg = str "*VTI*\n" ++ (str "\n• *" ++ (bigTitle ++ tailLit)) := by
  have h3 : escape_markdown_v2 (some (strip_html_tags (some badArticle.description))) = [] := by
    decide
  have h4 : escape_url badArticle.url = str "u" := by decide
  have hs : badMsg =
      (str "*" ++ escape_markdown_v2 (some (str "VTI")) ++ str "*\n") ++
        (str "\n• *" ++ escape_markdown_v2 (some badArticle.title) ++ str "*\n  " ++
          escape_markdown_v2 (some (strip_html_tags (some badArticle.description))) ++
          str "\n  [Read more](" ++ escape_url badArticle.url ++ str ")\n") := by
    have hcond : ¬(badArticle.url ∈ (initEtf (str "VTI") []).seen ∨
        badArticle.url ∈ (initEtf (str "VTI") []).localSeen) := by
      simp [initEtf]
    rw [badMsg, stepArticle, if_neg hcond]
    rfl
  rw [hs, h3, h4]
  rw [show escape_markdown_v2 (some (str "VTI")) = str "VTI" from by decide]
  rw [show escape_markdown_v2 (some badArticle.title) = bigTitle from escBig]
  rw [show str "*" ++ str "VTI" ++ str "*\n" = str "*VTI*\n" from by decide]
  refine congrArg (fun z => str "*VTI*\n" ++ z) ?_
  simp only [List.append_assoc, List.append_nil, List.nil_append]
  refine congrArg (fun z => str "\n• *" ++ (bigTitle ++ z)) ?_
  decide

theorem badMsg_len : badMsg.length = 4032 := by
  rw [badMsg_eq, List.length_append, List.length_append, List.length_append,
    bigTitle, List.length_replicate]
  rw [show (str "*VTI*\n").length = 6 from rfl,
    show (str "\n• *").length = 4 from rfl,
    show tailLit.length = 22 from rfl]

theorem bigTitle_no_nl : ∀ c ∈ bigTitle, ¬c = NL := by
  intro c hc
  rw [bigTitle] at hc
  rw [List.eq_of_mem_replicate hc]
  decide

theorem badMsg_rfind : rfindNLa badMsg 4000 = some 6 := by
  rw [badMsg_eq, ← List.append_assoc]
  rw [rfindNLa_append_big (str "*VTI*\n" ++ str "\n• *") (bigTitle ++ tailLit) 4000
    (by decide)]
  rw [rfindNLa_append_small bigTitle tailLit (4000 - (str "*VTI*\n" ++ str "\n• *").length)
    (by rw [bigTitle, List.length_replicate]; decide)]
  rw [rfindNLa_none bigTitle _ bigTitle_no_nl]
  decide

theorem badMsg_drop6 : badMsg.drop 6 = str "\n• *" ++ (bigTitle ++ tailLit) := by
  rw [badMsg_eq, show (6 : Nat) = (str "*VTI*\n").length from rfl, List.drop_left]

theorem tailPart_len : (str "\n• *" ++ (bigTitle ++ tailLit)).length = 4026 := by
  rw [List.length_append, List.length_append, bigTitle, List.length_replicate]
  rw [show (str "\n• *").length = 4 from rfl, show tailLit.length = 22 from rfl]

theorem rfindNLa_cons4000 : ∀ (c : Char) (cs : Str),
    rfindNLa (c :: cs) 4000 =
      (match rfindNLa cs 3999 with
       | some i => some (i + 1)
       | none => if c = NL then some 0 else none) := by
  intro c cs
  rfl

theorem tailPart_rfind : rfindNLa (str "\n• *" ++ (bigTitle ++ tailLit)) 4000 = some 0 := by
  rw [show str "\n• *" ++ (bigTitle ++ tailLit) =
        NL :: (str "• *" ++ (bigTitle ++ tailLit)) from rfl]
  rw [rfindNLa_cons4000]
  rw [← List.append_assoc]
  rw [rfindNLa_append_small (str "• *" ++ bigTitle) tailLit 3999
    (by rw [List.length_append, bigTitle, List.length_replicate]; decide)]
  rw [rfindNLa_none (str "• *" ++ bigTitle) 3999 ?_]
  · decide
  · intro c hc
    rcases List.mem_append.mp hc with hc' | hc'
    · clear hc
      revert hc'
      revert c
      decide
    · exact bigTitle_no_nl c hc'

/-- Claim C1 (counterexample): the per-ticker message `send_news`
assembles for a single article whose title is 4000 characters long
exceeds the 4000-character limit, and on it the source's split loop
diverges (no fuel completes it): the chunk sequence is never finished,
so it cannot reassemble to the original message. -/
theorem claim_C1_counterexample :
    4000 < badMsg.length ∧ splitLoopFuel badMsg.length badMsg = none := by
  have hlen := badMsg_len
  constructor
  · omega
  · rw [hlen]
    rw [show splitLoopFuel 4032 badMsg = splitLoopFuel (4031 + 1) badMsg from rfl]
    rw [splitLoopFuel, if_pos (by omega : 4000 < badMsg.length)]
    rw [show splitStep badMsg = (badMsg.take 6, badMsg.drop 6) from by
      rw [splitStep, badMsg_rfind]]
    dsimp only
    rw [badMsg_drop6]
    rw [splitLoop_diverges 4031 (str "\n• *" ++ (bigTitle ++ tailLit))
      (by rw [tailPart_len]; omega) tailPart_rfind]
    rfl
